import Mathlib

/-!
Verification development for the bounded autonomous tool-calling engine
(dev-lead-orchestrator): a shallow embedding, in Lean, of the sandboxed
execution surface (`ToolExecutor`), the bounded implementer tool-call loop,
the team-lead delegation loop, the event handlers, and the complexity
scoring, together with theorems checking the specified properties.

Strings are embedded as lists of characters (`Str`); the filesystem is an
association list from resolved absolute paths to file contents; the
reasoning service, the command runner and the directory reader are oracle
parameters, so every theorem quantifies over all of their behaviours.
-/

/-- Character-list strings: the embedding of JavaScript strings. -/
abbrev Str := List Char

/-- Converts a Lean string literal to its character-list embedding. -/
def str (s : String) : Str := s.data

/-- Decimal rendering of a natural number, used for interpolated counts. -/
def natStr (n : Nat) : Str := (toString n).data

/-- Substring test: embedding of JavaScript `String.prototype.includes`. -/
def includesStr (needle : Str) : Str → Bool
  | [] => List.isPrefixOf needle []
  | c :: rest => List.isPrefixOf needle (c :: rest) || includesStr needle rest

/-- Lowercases every character: embedding of `String.prototype.toLowerCase`
(ASCII-faithful; the configured keywords and extensions are ASCII). -/
def toLowerStr (s : Str) : Str := s.map Char.toLower

/-- Strips leading and trailing whitespace: embedding of
`String.prototype.trim`. -/
def trimStr (s : Str) : Str :=
  ((s.dropWhile Char.isWhitespace).reverse.dropWhile Char.isWhitespace).reverse

/-- The splitting scan, structurally recursive on a character-count fuel
(every step consumes at least one character, so the string length is
enough fuel). -/
def splitOnSubGo (sep : Str) : Nat → Str → List Str
  | _, [] => [[]]
  | 0, s => [s]
  | fuel + 1, c :: rest =>
    if sep.isPrefixOf (c :: rest) ∧ sep ≠ [] then
      [] :: splitOnSubGo sep fuel ((c :: rest).drop sep.length)
    else
      match splitOnSubGo sep fuel rest with
      | [] => [[c]]
      | h :: t => (c :: h) :: t

/-- Splits on every occurrence of a (nonempty) separator substring:
embedding of JavaScript `String.prototype.split` with a string argument.
Scans left to right without overlap, like the JS implementation; the
separators used in the source are all nonempty. -/
def splitOnSub (sep s : Str) : List Str := splitOnSubGo sep s.length s

/-- Concatenates a list of strings with a separator between consecutive
elements: embedding of `Array.prototype.join`. -/
def joinWith (sep : Str) : List Str → Str
  | [] => []
  | [x] => x
  | x :: y :: rest => x ++ sep ++ joinWith sep (y :: rest)

/-- Lexicographic string order by character code, the default JavaScript
`Array.prototype.sort` comparison on strings. -/
def leStr : Str → Str → Bool
  | [], _ => true
  | _ :: _, [] => false
  | a :: as, b :: bs => if a = b then leStr as bs else decide (a < b)

/-- Insertion step of the sort used to embed `Array.prototype.sort`. -/
def insertStr (x : Str) : List Str → List Str
  | [] => [x]
  | y :: ys => if leStr x y then x :: y :: ys else y :: insertStr x ys

/-- Sorts strings in the default JavaScript order (`entries.sort()`). -/
def sortStrList : List Str → List Str
  | [] => []
  | x :: xs => insertStr x (sortStrList xs)

/-! ## Path resolution (`ToolExecutor.resolvePath`)

The path model is the POSIX convention used by `path.resolve`: an absolute
path is rendered as a slash followed by slash-separated segments.  The
configured repository root is given by its normalized segment list
`rootSegs` (the result of `path.resolve(this.repoPath)`), so the root
string is `joinSegs rootSegs`. -/

/-- Removes the leading slashes of the caller-supplied path: embedding of
`relativePath.replace(/^\/+/, '')`. -/
def dropLeadingSlashes : Str → Str
  | '/' :: rest => dropLeadingSlashes rest
  | s => s

/-- Removes every occurrence of the three-character substring `../` in one
left-to-right pass: embedding of `.replace(/\.\.\//g, '')`.  As in the JS
global replace, the output is not rescanned, so an occurrence formed by a
deletion (for example in `....//`) survives. -/
def removeDotDotSlash : Str → Str
  | '.' :: '.' :: '/' :: rest => removeDotDotSlash rest
  | c :: rest => c :: removeDotDotSlash rest
  | [] => []

/-- Splits a path string into its slash-separated segments. -/
def splitSlash : Str → List Str
  | [] => [[]]
  | c :: rest =>
    if c = '/' then [] :: splitSlash rest
    else
      match splitSlash rest with
      | [] => [[c]]
      | h :: t => (c :: h) :: t

/-- One step of path normalization: empty and `.` segments are dropped,
`..` pops the last accepted segment (a no-op at the root, as in
`path.resolve` on absolute paths), and any other segment is kept. -/
def normStep (acc : List Str) (s : Str) : List Str :=
  if s = [] ∨ s = ['.'] then acc
  else if s = ['.', '.'] then acc.dropLast
  else acc ++ [s]

/-- Normalizes a segment sequence against an already-normalized base:
the segment-level behaviour of `path.resolve(base, rel)`. -/
def normSegs (acc : List Str) : List Str → List Str
  | [] => acc
  | s :: rest => normSegs (normStep acc s) rest

/-- Renders a normalized absolute segment list as a POSIX path string. -/
def encodeSegs : List Str → Str
  | [] => []
  | s :: rest => '/' :: s ++ encodeSegs rest

/-- Absolute-path rendering; the empty segment list is the filesystem
root `/`. -/
def joinSegs (segs : List Str) : Str :=
  if segs = [] then ['/'] else encodeSegs segs

/-- Tests whether a POSIX path string is absolute. -/
def isAbsolute : Str → Bool
  | '/' :: _ => true
  | _ => false

/-- Segment-level `path.resolve(base, p)`: a path that (still) begins with
a slash is absolute and ignores the base, otherwise the path is resolved
against the base. -/
def resolveWith (rootSegs : List Str) (p : Str) : List Str :=
  if isAbsolute p then normSegs [] (splitSlash p)
  else normSegs rootSegs (splitSlash p)

/-- Embedding of `ToolExecutor.resolvePath` (the hardened variant): strip
leading slashes, delete `../` occurrences, resolve against the normalized
root, and accept only when the resolved string equals the root or extends
it past a separator.  `none` models the thrown
`Error('Path traversal not allowed')`. -/
def resolvePath (rootSegs : List Str) (relativePath : Str) : Option Str :=
  let cleanRelativePath := removeDotDotSlash (dropLeadingSlashes relativePath)
  let resolvedSegs := resolveWith rootSegs cleanRelativePath
  let resolved := joinSegs resolvedSegs
  let normalizedRepoPath := joinSegs rootSegs
  if resolved = normalizedRepoPath ∨
      List.isPrefixOf (normalizedRepoPath ++ ['/']) resolved then
    some resolved
  else
    none

/-- A well-formed path segment: nonempty, slash-free, and not one of the
special names `.` and `..`.  The normalized configured root consists of
such segments, and so does every accepted resolution. -/
def validSeg (s : Str) : Prop :=
  s ≠ [] ∧ '/' ∉ s ∧ s ≠ ['.'] ∧ s ≠ ['.', '.']

/-- All segments of a list are well formed. -/
def validSegs (l : List Str) : Prop := ∀ s ∈ l, validSeg s

instance (s : Str) : Decidable (validSeg s) := by
  unfold validSeg; infer_instance

instance (l : List Str) : Decidable (validSegs l) := by
  unfold validSegs; infer_instance

/-! ### Confinement of the resolved path

The security property underlying the path-traversal claims: whenever
`resolvePath` accepts, the resolved string renders a segment list that
extends the configured root segment list.  The string-level check of the
source (`startsWith(normalizedRepoPath + path.sep)`) is related to the
segment-level notion of being inside the root by the lemmas below. -/

/-- A weaker segment condition sufficient for the rendering lemmas. -/
def sepFree (l : List Str) : Prop := ∀ s ∈ l, s ≠ [] ∧ '/' ∉ s

/-! ## The execution surface (`ToolExecutor`)

The filesystem is an association list from resolved absolute path strings
to file contents; a newer entry shadows an older one, so `fsSet` models an
overwrite.  Directory creation (`fs.mkdir recursive`) has no observable
effect in this flat model.  Process execution and directory reading are
oracle parameters (`ExecEnv`), so theorems hold for every behaviour of the
underlying system. -/

/-- The uniform result triple every tool call returns. -/
structure ToolResult where
  success : Bool
  output : Str
  error : Option Str
deriving DecidableEq

/-- The `maxOutputLength` limit of `ToolExecutor`. -/
def maxOutputLength : Nat := 10000

/-- Embedding of `ToolExecutor.truncateOutput`. -/
def truncateOutput (output : Str) : Str :=
  if output.length > maxOutputLength then
    output.take maxOutputLength ++ str "\n... (output truncated)"
  else output

/-- The denylist `PROTECTED_PATHS` of `src/tools/definitions.ts`. -/
def PROTECTED_PATHS : List Str :=
  [str ".env", str ".env.local", str ".env.production", str ".git",
   str "node_modules", str "package-lock.json", str ".github/workflows"]

/-- Embedding of `ToolExecutor.isProtectedPath`: the raw caller-supplied
path is compared textually with each denylist entry, as an exact match or
an extension past a forward- or backslash separator. -/
def isProtectedPath (relativePath : Str) : Bool :=
  PROTECTED_PATHS.any (fun protectedPath =>
    relativePath == protectedPath ||
    List.isPrefixOf (protectedPath ++ ['/']) relativePath ||
    List.isPrefixOf (protectedPath ++ ['\\']) relativePath)

/-- The allow-list `ALLOWED_COMMANDS` of `src/tools/definitions.ts`. -/
def ALLOWED_COMMANDS : List Str :=
  [str "npm test", str "npm run test", str "npm run build",
   str "npm run lint", str "npm run type-check", str "npm run typecheck",
   str "npm install", str "npm ci", str "npx tsc --noEmit",
   str "npx eslint", str "npx prettier"]

/-- The filesystem model: resolved absolute path to contents. -/
abbrev Fs := List (Str × Str)

/-- Reads a file; the most recent entry for a path wins. -/
def fsGet (fs : Fs) (p : Str) : Option Str :=
  match fs.find? (fun e => e.1 == p) with
  | some e => some e.2
  | none => none

/-- Writes a file by shadowing any older entry. -/
def fsSet (fs : Fs) (p v : Str) : Fs := (p, v) :: fs

/-- The message of the `Error` thrown by `resolvePath`, as surfaced by the
`execute` wrapper in a failure result. -/
def pathTraversalMsg : Str := str "Path traversal not allowed"

/-- Failure result of an aborted path-traversal attempt. -/
def travFailure : ToolResult := ⟨false, [], some pathTraversalMsg⟩

/-- The `ProtectedPath`-kind failure message of write and apply-edit. -/
def protectedMsg (p : Str) : Str := str "Cannot modify protected path: " ++ p

/-- Failure result of a write or apply-edit on a denylisted path. -/
def protectedFailure (p : Str) : ToolResult := ⟨false, [], some (protectedMsg p)⟩

/-- The message of the error thrown when reading a missing file, as
surfaced by the `execute` wrapper. -/
def notFoundMsg (p : Str) : Str :=
  str "ENOENT: no such file or directory, open " ++ p

/-- The `NoMatch`-kind failure message of `applyDiff`. -/
def noMatchMsg : Str :=
  str "Original text not found in file. Make sure it matches exactly (including whitespace)."

/-- Embedding of `ToolExecutor.readFile` (as observed through `execute`):
resolve, then read, truncating long contents. -/
def readFile (rootSegs : List Str) (fs : Fs) (filePath : Str) : ToolResult :=
  match resolvePath rootSegs filePath with
  | none => travFailure
  | some fullPath =>
    match fsGet fs fullPath with
    | none => ⟨false, [], some (notFoundMsg fullPath)⟩
    | some content => ⟨true, truncateOutput content, none⟩

/-- Embedding of `ToolExecutor.writeFile`: the denylist check on the raw
path comes first, then resolution, then the write. -/
def writeFile (rootSegs : List Str) (fs : Fs) (filePath content : Str) :
    Fs × ToolResult :=
  if isProtectedPath filePath then (fs, protectedFailure filePath)
  else
    match resolvePath rootSegs filePath with
    | none => (fs, travFailure)
    | some fullPath =>
      (fsSet fs fullPath content,
       ⟨true, str "Successfully wrote " ++ natStr content.length ++
          str " characters to " ++ filePath, none⟩)

/-- Replaces the first occurrence of `orig` by `repl`, the behaviour of
JavaScript `content.replace(orig, repl)` with string arguments whose
replacement contains no `$` placeholder pattern; when `orig` does not
occur the content is returned unchanged. -/
def replaceFirst (orig repl : Str) : Str → Str
  | [] => if List.isPrefixOf orig [] then repl else []
  | c :: cs =>
    if List.isPrefixOf orig (c :: cs) then repl ++ (c :: cs).drop orig.length
    else c :: replaceFirst orig repl cs

/-- Embedding of `ToolExecutor.applyDiff` (as observed through `execute`):
denylist check, resolution, read, exact-substring check, first-occurrence
replacement, write. -/
def applyDiff (rootSegs : List Str) (fs : Fs)
    (filePath original replacement : Str) : Fs × ToolResult :=
  if isProtectedPath filePath then (fs, protectedFailure filePath)
  else
    match resolvePath rootSegs filePath with
    | none => (fs, travFailure)
    | some fullPath =>
      match fsGet fs fullPath with
      | none => (fs, ⟨false, [], some (notFoundMsg fullPath)⟩)
      | some content =>
        if includesStr original content = false then
          (fs, ⟨false, [], some noMatchMsg⟩)
        else
          (fsSet fs fullPath (replaceFirst original replacement content),
           ⟨true, str "Successfully applied diff to " ++ filePath, none⟩)

/-- Outcome of one `execAsync` invocation: success with captured streams,
or a thrown error carrying an exit code, captured streams and a message
(also covering timeouts). -/
inductive ExecOutcome where
  | ok (stdout stderr : Str)
  | err (code : Option Nat) (stdout stderr message : Str)

/-- The failure result of a non-allow-listed command. -/
def notAllowedResult : ToolResult :=
  ⟨false, [],
   some (str "Command not allowed. Allowed commands: " ++
     joinWith (str ", ") ALLOWED_COMMANDS)⟩

/-- The allow-list test of `ToolExecutor.runCommand`: exact match, or an
allow-listed entry followed by a space. -/
def commandAllowed (command : Str) : Bool :=
  ALLOWED_COMMANDS.any (fun allowed =>
    command == allowed || List.isPrefixOf (allowed ++ [' ']) command)

/-- Embedding of `ToolExecutor.runCommand`; the boolean of the pair
records whether a process was spawned (the branch that calls `execAsync`).
A non-zero exit is the `err` outcome: the result is a failure still
carrying the truncated captured stdout, with stderr (or, when empty, the
error message) as the error. -/
def runCommand (exec : Str → ExecOutcome) (command : Str) :
    ToolResult × Bool :=
  if commandAllowed command = false then (notAllowedResult, false)
  else
    match exec command with
    | .ok stdout stderr =>
      let output :=
        stdout ++ (if stderr ≠ [] then str "\nSTDERR:\n" ++ stderr else [])
      (⟨true, truncateOutput output, none⟩, true)
    | .err _ stdout stderr message =>
      (⟨false, truncateOutput stdout,
        some (if stderr ≠ [] then stderr else message)⟩, true)

/-- A directory entry as returned by `fs.readdir(withFileTypes)`. -/
structure DirEnt where
  name : Str
  isDir : Bool

/-- Oracles for the environment the executor runs in: process execution,
directory reading, and the recursive walk of `listRecursive` (directory
trees live outside the flat file model). -/
structure ExecEnv where
  exec : Str → ExecOutcome
  readdir : Str → List DirEnt
  listRec : Str → Str → List Str

/-- Hidden-entry test of the listing filter. -/
def startsWithDot : Str → Bool
  | '.' :: _ => true
  | _ => false

/-- The non-recursive listing body: filter hidden entries and
`node_modules`, suffix directories with a slash, sort, join. -/
def renderDirEntries (entries : List DirEnt) : Str :=
  joinWith (str "\n")
    (sortStrList
      ((entries.filter (fun e =>
          !startsWithDot e.name && !(e.name == str "node_modules"))).map
        (fun e => if e.isDir then e.name ++ ['/'] else e.name)))

/-- Embedding of `ToolExecutor.listDirectory`: resolution happens before
any directory access in both modes, and both outputs share the global
truncation cap. -/
def listDirectory (rootSegs : List Str) (env : ExecEnv)
    (dirPath : Str) (recursive : Bool) : ToolResult :=
  match resolvePath rootSegs dirPath with
  | none => travFailure
  | some fullPath =>
    if recursive then
      ⟨true, truncateOutput (joinWith (str "\n") (env.listRec fullPath dirPath)),
       none⟩
    else
      ⟨true, truncateOutput (renderDirEntries (env.readdir fullPath)), none⟩

/-- Escapes double quotes for the grep command line. -/
def escapeQuotes : Str → Str
  | [] => []
  | c :: rest => (if c = '"' then ['\\', '"'] else [c]) ++ escapeQuotes rest

/-- The default `--include` filters of `searchCode`. -/
def defaultIncludes : Str :=
  str " --include=\"*.ts\" --include=\"*.tsx\" --include=\"*.js\" --include=\"*.jsx\" --include=\"*.json\" --include=\"*.css\" --include=\"*.html\""

/-- The grep command line `searchCode` builds. -/
def grepCommand (pattern : Str) (fileGlob : Option Str) : Str :=
  match fileGlob with
  | some g =>
    str "grep -rn \"" ++ escapeQuotes pattern ++ str "\"" ++
      str " --include=\"" ++ g ++ str "\""
  | none => str "grep -rn \"" ++ escapeQuotes pattern ++ str "\"" ++ defaultIncludes

/-- Embedding of `ToolExecutor.searchCode`: exit code 1 is the explicit
no-matches success, any other failure propagates as an error result. -/
def searchCode (env : ExecEnv) (pattern : Str) (fileGlob : Option Str) :
    ToolResult :=
  match env.exec (grepCommand pattern fileGlob) with
  | .ok stdout _ => ⟨true, truncateOutput stdout, none⟩
  | .err code _ _ message =>
    if code = some 1 then ⟨true, str "No matches found", none⟩
    else ⟨false, [], some message⟩

/-- The input map a tool call carries; the executor reads the fields the
dispatched tool needs (`input.path as string`, and so on). -/
structure ToolInput where
  path : Str
  content : Str
  original : Str
  replacement : Str
  command : Str
  pattern : Str
  fileGlob : Option Str
  recursive : Bool

/-- An input map holding only a path. -/
def pathInput (p : Str) : ToolInput := ⟨p, [], [], [], [], [], none, false⟩

/-- An input map for a write. -/
def writeInput (p c : Str) : ToolInput := ⟨p, c, [], [], [], [], none, false⟩

/-- An input map for an apply-edit. -/
def diffInput (p o r : Str) : ToolInput := ⟨p, [], o, r, [], [], none, false⟩

/-- Embedding of `ToolExecutor.execute`: dispatch on the tool name, with
the unknown-tool failure of the default branch. -/
def executeTool (rootSegs : List Str) (env : ExecEnv) (fs : Fs)
    (toolName : Str) (input : ToolInput) : Fs × ToolResult :=
  if toolName == str "read_file" then (fs, readFile rootSegs fs input.path)
  else if toolName == str "write_file" then
    writeFile rootSegs fs input.path input.content
  else if toolName == str "list_directory" then
    (fs, listDirectory rootSegs env input.path input.recursive)
  else if toolName == str "search_code" then
    (fs, searchCode env input.pattern input.fileGlob)
  else if toolName == str "run_command" then
    (fs, (runCommand env.exec input.command).1)
  else if toolName == str "apply_diff" then
    applyDiff rootSegs fs input.path input.original input.replacement
  else (fs, ⟨false, [], some (str "Unknown tool: " ++ toolName)⟩)

/-! ## Claims about the execution surface -/

/-- A concrete configured root, `/repo`, used by closed statements. -/
def rootEx : List Str := [str "repo"]

/-- A concrete filesystem holding the denylisted file `/repo/.env`. -/
def fsEx : Fs := [(str "/repo/.env", str "OLD")]

/-- A file whose content holds two occurrences of `hello`. -/
def fsC5 : Fs := [(str "/repo/a.txt", str "hello world hello")]

/-- A file already holding only the replacement of the pair
(`hello`, `bye`) and no remaining original. -/
def fsC5b : Fs := [(str "/repo/a.txt", str "bye world")]

/-! ## The bounded implementer tool-call loop

`runImplementerAgent` (`src/services/agent-runner.ts`, ceiling 100) and
`runBasicImplementer` (`src/tools/definitions.ts`, ceiling 1000) share the
same loop body; the embedding factors it as `implLoop`, instantiated with
each ceiling.  The reasoning service is an oracle from the accumulated
message list to the next response, so theorems quantify over every
service behaviour. -/

/-- A tool call requested by the reasoning service. -/
structure ToolCall where
  id : Str
  name : Str
  input : ToolInput

/-- One content block of a reasoning-service response. -/
inductive RBlock where
  | text (s : Str)
  | toolUse (t : ToolCall)

/-- A reasoning-service response: its ordered content blocks. -/
structure Response where
  content : List RBlock

/-- The concatenated text blocks of a response (`textOutput`). -/
def textOf (r : Response) : Str :=
  r.content.foldl
    (fun acc b => match b with | .text s => acc ++ s | .toolUse _ => acc) []

/-- The tool-use blocks of a response, in order (`toolUseBlocks`). -/
def toolUseBlocksOf (r : Response) : List ToolCall :=
  r.content.filterMap
    (fun b => match b with | .toolUse t => some t | .text _ => none)

/-- One entry of the bundled tool-result message. -/
structure ToolResultEntry where
  toolUseId : Str
  content : Str
  isError : Bool

/-- A message of the loop conversation: the initial or nudge user text,
an assistant turn, or the bundled tool results returned as one
user-role message. -/
inductive MEntry where
  | userText (s : Str)
  | assistantTurn (r : Response)
  | toolResultsMsg (rs : List ToolResultEntry)

/-- The completion sentinel of the implementer loop. -/
def SENT_COMPLETE : Str := str "IMPLEMENTATION_COMPLETE"

/-- The blocked sentinel of the implementer loop. -/
def SENT_BLOCKED : Str := str "IMPLEMENTATION_BLOCKED:"

/-- The reason extracted after the blocked sentinel:
`textOutput.split('IMPLEMENTATION_BLOCKED:')[1]?.trim() || 'Unknown'`. -/
def blockReason (t : Str) : Str :=
  let r := trimStr ((splitOnSub SENT_BLOCKED t).getD 1 [])
  if r = [] then str "Unknown" else r

/-- Sequential execution of the requested tool calls: each call runs
through the execution surface; a `write_file` or `apply_diff` call records
its target path into the deduplicated changed-file list (with no check of
the call result, as in the source), and every result is bundled into one
entry list.  Returns the final filesystem, the entries and the updated
changed-file list. -/
def execTools (rootSegs : List Str) (env : ExecEnv) (fs : Fs)
    (changed : List Str) : List ToolCall → Fs × List ToolResultEntry × List Str
  | [] => (fs, [], changed)
  | tc :: rest =>
    let fsr := executeTool rootSegs env fs tc.name tc.input
    let changedNext :=
      if tc.name == str "write_file" || tc.name == str "apply_diff" then
        if tc.input.path ∈ changed then changed else changed ++ [tc.input.path]
      else changed
    let entry : ToolResultEntry :=
      ⟨tc.id,
       if fsr.2.success then fsr.2.output
       else str "Error: " ++ fsr.2.error.getD [],
       !fsr.2.success⟩
    let tailRes := execTools rootSegs env fsr.1 changedNext rest
    (tailRes.1, entry :: tailRes.2.1, tailRes.2.2)

/-- Outcome of an implementer loop run, with the data the source attaches:
`completed` is the success return (empty error, suggested tester),
`blocked` the failure return carrying the parsed reason, and `maxedOut`
the ceiling return (failure, needs human review, with the accumulated
changed-file list). -/
inductive ImplOutcome where
  | completed (changedFiles : List Str) (iterations : Nat)
  | blocked (reason : Str) (iterations : Nat)
  | maxedOut (changedFiles : List Str) (iterations : Nat)
deriving DecidableEq

/-- The iteration counter a loop outcome reports. -/
def iterationsOf : ImplOutcome → Nat
  | .completed _ n => n
  | .blocked _ n => n
  | .maxedOut _ n => n

/-- The changed-file list a loop outcome reports (the blocked return of
the source carries no data field). -/
def changedOf : ImplOutcome → List Str
  | .completed c _ => c
  | .blocked _ _ => []
  | .maxedOut c _ => c

/-- The nudge appended when a response has no tool calls and no
sentinel. -/
def implNudge : Str :=
  str "Continue implementation or say IMPLEMENTATION_COMPLETE if done."

/-- The shared loop body of the implementer agents: scan the response text
for the two sentinels first (independently of tool-call presence), then
execute requested tool calls and loop, or nudge and loop; the fuel is the
remaining distance to `maxIterations`. -/
def implLoop (rootSegs : List Str) (env : ExecEnv)
    (svc : List MEntry → Response) :
    Fs → List MEntry → List Str → Nat → Nat → ImplOutcome
  | _, _, changed, iter, 0 => .maxedOut changed iter
  | fs, messages, changed, iter, fuel + 1 =>
    let iterations := iter + 1
    let response := svc messages
    let textOutput := textOf response
    if includesStr SENT_COMPLETE textOutput then .completed changed iterations
    else if includesStr SENT_BLOCKED textOutput then
      .blocked (blockReason textOutput) iterations
    else
      let toolUseBlocks := toolUseBlocksOf response
      if toolUseBlocks.isEmpty then
        implLoop rootSegs env svc fs
          (messages ++ [.assistantTurn response, .userText implNudge])
          changed iterations fuel
      else
        let step := execTools rootSegs env fs changed toolUseBlocks
        implLoop rootSegs env svc step.1
          (messages ++ [.assistantTurn response, .toolResultsMsg step.2.1])
          step.2.2 iterations fuel

/-- The `maxIterations` ceiling of `runImplementerAgent` in agent-runner. -/
def implementerMaxIterations : Nat := 100

/-- The `maxIterations` ceiling of `runBasicImplementer`. -/
def basicImplementerMaxIterations : Nat := 1000

/-- The suffix appended to the base context in the initial message of
`runImplementerAgent`. -/
def beginImplMsg : Str :=
  str "\n\nBegin implementation. Explore the codebase first, then make changes."

/-- The pre-loaded-context note of `runBasicImplementer` (prompt wording
abbreviated; the exact phrasing is out of the specified scope). -/
def importantNote : Str :=
  str "\n\nIMPORTANT: key files are pre-loaded above. Use this context to understand the codebase structure."

/-- The initial-instruction suffix of `runBasicImplementer`. -/
def basicBeginMsg : Str :=
  str "\n\nBegin implementation. Make targeted changes based on the context provided above."

/-- Embedding of `runImplementerAgent` (agent-runner variant): the loop
started on the base context with ceiling 100 and an empty changed-file
list. -/
def runImplementerAgent (rootSegs : List Str) (env : ExecEnv)
    (svc : List MEntry → Response) (fs : Fs) (baseContext : Str) :
    ImplOutcome :=
  implLoop rootSegs env svc fs [.userText (baseContext ++ beginImplMsg)]
    [] 0 implementerMaxIterations

/-- Embedding of `runBasicImplementer`: the loop started on the enriched
context (base context, pre-gathered initial context, note and
instruction) with ceiling 1000. -/
def runBasicImplementer (rootSegs : List Str) (env : ExecEnv)
    (svc : List MEntry → Response) (fs : Fs)
    (baseContext initialContext : Str) : ImplOutcome :=
  implLoop rootSegs env svc fs
    [.userText (baseContext ++ initialContext ++ importantNote ++ basicBeginMsg)]
    [] 0 basicImplementerMaxIterations

/-- The environment oracle used by closed statements: commands succeed
with empty output, directories are empty. -/
def envEx : ExecEnv := ⟨fun _ => .ok [] [], fun _ => [], fun _ _ => []⟩

/-- A scripted service answering the completion sentinel together with a
tool-call request on every turn. -/
def svcC7 : List MEntry → Response :=
  fun _ =>
    ⟨[.text (str "All done. IMPLEMENTATION_COMPLETE"),
      .toolUse ⟨str "t1", str "write_file", writeInput (str "a.txt") (str "x")⟩]⟩

/-- A scripted service requesting a write to the denylisted `.env` on its
first turn and completing on the second. -/
def svcC8 : List MEntry → Response := fun m =>
  if m.length ≤ 1 then
    ⟨[.toolUse ⟨str "t1", str "write_file", writeInput (str ".env") (str "x")⟩]⟩
  else ⟨[.text SENT_COMPLETE]⟩

/-! ## The team-lead delegation engine (`runTeamLead`)

The delegation loop is bounded by `MAX_ITERATIONS = 25`; the reasoning
service and the specialist agents (`runAgentForTeamLead`) are oracle
parameters.  The session is threaded as explicit state; posted comments
and labels are out-of-scope notifications. -/

/-- The delegatable specialist capabilities. -/
inductive AgentName where
  | clarifier
  | scope
  | designer
  | planner
  | implementer
  | tester
  | prCreator
deriving DecidableEq

/-- The display name used in delegation summaries. -/
def agentNameStr : AgentName → Str
  | .clarifier => str "clarifier"
  | .scope => str "scope"
  | .designer => str "designer"
  | .planner => str "planner"
  | .implementer => str "implementer"
  | .tester => str "tester"
  | .prCreator => str "pr-creator"

/-- The `data` bag attached to a specialist result. -/
structure AgentData where
  changedFiles : Option (List Str)
  results : Option (List Str)
  prNumber : Option Str
  prUrl : Option Str

/-- The structured result a specialist run returns. -/
structure AgentResult where
  success : Bool
  output : Str
  needsHumanInput : Bool
  humanQuestion : Option Str
  suggestedNextAgent : Option AgentName
  error : Option Str
  data : Option AgentData

/-- The orthogonal session status axis. -/
inductive SessionStatus where
  | active
  | paused
  | completed
  | cancelled
deriving DecidableEq

/-- The session phase axis of the fixed pipeline. -/
inductive AgentPhase where
  | clarifying
  | scoping
  | designing
  | planning
  | completed
deriving DecidableEq

/-- The metadata bag of a session: the accumulated artifacts the engine
reads and merges. -/
structure SessionMeta where
  mode : Option Str
  scope : Option Str
  design : Option Str
  plan : Option Str
  implementedFiles : Option (List Str)
  testResults : Option (List Str)
  prNumber : Option Str
  prUrl : Option Str
  pendingClaudeCodePlan : Option Str
  approvedClaudeCodePlan : Option Str

/-- A conversation message (role and content). -/
structure ConvMsg where
  isUser : Bool
  content : Str

/-- The durable session record. -/
structure Session where
  status : SessionStatus
  currentPhase : AgentPhase
  metadata : SessionMeta
  conversation : List ConvMsg

/-- The decision primitives the lead can select. -/
inductive TLToolUse where
  | think (reasoning : Str)
  | delegateToAgent (agent : AgentName) (instructions : Str)
  | askHuman (question : Str)
  | markComplete (summary : Str)
  | markBlocked (reason attempted : Str)
  | unknownTool (name : Str)

/-- One content block of a lead response. -/
inductive TLBlock where
  | text (s : Str)
  | tool (t : TLToolUse)

/-- A lead reasoning-service response. -/
structure TLResponse where
  content : List TLBlock

/-- The tool-use blocks of a lead response, in order. -/
def tlToolUses (r : TLResponse) : List TLToolUse :=
  r.content.filterMap
    (fun b => match b with | .tool t => some t | .text _ => none)

/-- A message of the lead conversation. -/
inductive TLEntry where
  | userText (s : Str)
  | assistantTurn (r : TLResponse)
  | toolResultsMsg (rs : List Str)

/-- The status of a finished lead run. -/
inductive TLStatus where
  | completed
  | blocked
  | waitingForHuman
deriving DecidableEq

/-- A delegation record: capability, instruction, result. -/
structure Delegation where
  agent : AgentName
  input : Str
  output : AgentResult

/-- The result a lead run returns. -/
structure TeamLeadResult where
  status : TLStatus
  summary : Str
  delegations : List Delegation
  prUrl : Option Str

/-- The `MAX_ITERATIONS` ceiling of the team lead. -/
def MAX_ITERATIONS : Nat := 25

/-- Appends an assistant message to the session conversation
(`sessionService.addMessage`). -/
def addAssistantMsg (s : Session) (content : Str) : Session :=
  { s with conversation := s.conversation ++ [⟨false, content⟩] }

/-- The metadata merge performed after a successful delegation that
carries data: each capability owns its artifact keys. -/
def applyAgentMeta (agent : AgentName) (ar : AgentResult) (s : Session) :
    Session :=
  match ar.data with
  | none => s
  | some d =>
    if ar.success then
      match agent with
      | .scope => { s with metadata := { s.metadata with scope := some ar.output } }
      | .designer =>
        { s with metadata := { s.metadata with design := some ar.output } }
      | .planner =>
        { s with metadata := { s.metadata with plan := some ar.output } }
      | .implementer =>
        { s with metadata := { s.metadata with implementedFiles := d.changedFiles } }
      | .tester =>
        { s with metadata := { s.metadata with testResults := d.results } }
      | .prCreator =>
        { s with metadata :=
          { s.metadata with prNumber := d.prNumber, prUrl := d.prUrl } }
      | .clarifier => s
    else s

/-- The tool-result summary built for the lead after a delegation. -/
def delegationSummary (agent : AgentName) (ar : AgentResult) : Str :=
  if ar.success then
    agentNameStr agent ++ str " completed successfully. Output: " ++
      ar.output.take 500 ++
      (match ar.suggestedNextAgent with
       | some nxt => str ". Suggested next: " ++ agentNameStr nxt
       | none => [])
  else
    agentNameStr agent ++ str " failed: " ++ (ar.error.getD (str "Unknown error"))

/-- The stepping result of processing the tool-use blocks of one lead
response: an early return out of the whole run, or the updated state plus
the bundled tool results. -/
inductive TLStep where
  | exit (result : TeamLeadResult) (session : Session)
  | cont (session : Session) (delegations : List Delegation)
      (toolResults : List Str)

/-- Prepends one tool result onto a continuing step; an early return
discards the bundle, as the source returns out of the handler. -/
def prependResult (r : Str) : TLStep → TLStep
  | .exit res s => .exit res s
  | .cont s d trs => .cont s d (r :: trs)

/-- Processes the tool-use blocks of one lead response in order:
`think` records reasoning, a delegation runs the capability and merges
its artifacts — returning early when the capability asks for human input
or when a successful PR creation completes the session — `ask_human`
suspends, `mark_complete` and `mark_blocked` end the run, and an unknown
tool yields an error result. -/
def tlProcessBlocks (agentOracle : AgentName → Str → AgentResult) :
    Session → List Delegation → List TLToolUse → TLStep
  | sess, dels, [] => .cont sess dels []
  | sess, dels, block :: rest =>
    match block with
    | .think _ =>
      prependResult (str "Reasoning recorded. Now take action.")
        (tlProcessBlocks agentOracle sess dels rest)
    | .delegateToAgent agent instructions =>
      let agentResult := agentOracle agent instructions
      let dels2 := dels ++ [⟨agent, instructions, agentResult⟩]
      let sess2 := applyAgentMeta agent agentResult sess
      if agentResult.needsHumanInput ∧ agentResult.humanQuestion.isSome then
        .exit
          ⟨.waitingForHuman,
           str "Waiting for human response to: " ++
             agentResult.humanQuestion.getD [],
           dels2, none⟩
          (addAssistantMsg sess2 (agentResult.humanQuestion.getD []))
      else if agent = .prCreator ∧ agentResult.success then
        .exit
          ⟨.completed, str "PR created successfully", dels2,
           agentResult.data.bind (fun d => d.prUrl)⟩
          { sess2 with status := .completed, currentPhase := .completed }
      else
        prependResult (delegationSummary agent agentResult)
          (tlProcessBlocks agentOracle sess2 dels2 rest)
    | .askHuman question =>
      .exit
        ⟨.waitingForHuman, str "Waiting for human response to: " ++ question,
         dels, none⟩
        (addAssistantMsg sess question)
    | .markComplete summary =>
      .exit ⟨.completed, summary, dels, none⟩
        { sess with status := .completed, currentPhase := .completed }
    | .markBlocked reason _ =>
      .exit ⟨.blocked, reason, dels, none⟩ { sess with status := .paused }
    | .unknownTool name =>
      prependResult (str "Unknown tool: " ++ name)
        (tlProcessBlocks agentOracle sess dels rest)

/-- The nudge the lead receives when a response carries no tool call. -/
def tlActionNudge : Str :=
  str "Please use a tool to take action. Delegate to an agent, ask a human, or mark the ticket as complete/blocked."

/-- The summary of a ceiling-terminated lead run. -/
def tlMaxSummary : Str :=
  str "Reached max iterations (" ++ natStr MAX_ITERATIONS ++ str ")"

/-- The decision-context line rebuilt each iteration (prompt wording
abbreviated; the exact phrasing is out of the specified scope). -/
def buildStateContext (s : Session) (dels : List Delegation) : Str :=
  str "Status: " ++
    (match s.status with
     | .active => str "active"
     | .paused => str "paused"
     | .completed => str "completed"
     | .cancelled => str "cancelled") ++
    str "; Delegations: " ++ natStr dels.length

/-- The bounded lead loop: on each iteration the response either carries
no tool call (nudge and continue) or its blocks are processed; reaching
the ceiling pauses the session and reports the blocked result.  The last
component counts the iterations performed, mirroring the `iterations`
variable of the source. -/
def tlLoop (svc : List TLEntry → TLResponse)
    (agentOracle : AgentName → Str → AgentResult) :
    Session → List TLEntry → List Delegation → Nat → Nat →
    TeamLeadResult × Session × Nat
  | sess, _, dels, iter, 0 =>
    (⟨.blocked, tlMaxSummary, dels, none⟩, { sess with status := .paused },
     iter)
  | sess, messages, dels, iter, fuel + 1 =>
    let iterations := iter + 1
    let response := svc messages
    let toolUseBlocks := tlToolUses response
    if toolUseBlocks.isEmpty then
      tlLoop svc agentOracle sess
        (messages ++ [.assistantTurn response, .userText tlActionNudge])
        dels iterations fuel
    else
      match tlProcessBlocks agentOracle sess dels toolUseBlocks with
      | .exit result sess2 => (result, sess2, iterations)
      | .cont sess2 dels2 toolResults =>
        tlLoop svc agentOracle sess2
          (messages ++ [.assistantTurn response, .toolResultsMsg toolResults])
          dels2 iterations fuel

/-- Embedding of `runTeamLead`: the loop started on the initial state
context with ceiling 25. -/
def runTeamLead (svc : List TLEntry → TLResponse)
    (agentOracle : AgentName → Str → AgentResult) (sess : Session) :
    TeamLeadResult × Session × Nat :=
  tlLoop svc agentOracle sess [.userText (buildStateContext sess [])] [] 0
    MAX_ITERATIONS

/-! ## Event handlers and session-status gating

Each handler is embedded as the decision it takes on the session it
loads: which early return fires, and whether a capability or the
delegation engine is invoked.  The notification side effects are
out-of-scope. -/

/-- The dispatch decision of `handleTeamLead` on the loaded session:
no session creates one and runs the engine, a paused session resumes and
runs it, a completed session only posts the already-completed note, and
every other status — active or cancelled — falls through to
`runTeamLead`. -/
inductive TLHandlerAction where
  | createAndRun
  | resumeAndRun
  | alreadyCompletedNoRun
  | runExisting
deriving DecidableEq

/-- Embedding of the `handleTeamLead` status chain. -/
def handleTeamLead : Option Session → TLHandlerAction
  | none => .createAndRun
  | some s =>
    if s.status = .paused then .resumeAndRun
    else if s.status = .completed then .alreadyCompletedNoRun
    else .runExisting

/-- Whether a dispatch decision reaches the `runTeamLead` call. -/
def tlActionInvokesEngine : TLHandlerAction → Bool
  | .alreadyCompletedNoRun => false
  | _ => true

/-- The routing decision of the fixed-pipeline `handleHumanResponse`. -/
inductive HRAction where
  | noSession
  | ignoredInactive
  | runsClarifier
  | runsScope
  | runsDesigner
  | runsPlanner
  | completedNoop
deriving DecidableEq

/-- Embedding of `handleHumanResponse`: a non-active session is ignored,
otherwise the reply is routed to the capability owning the current
phase, and a completed session gets the explanatory no-op comment. -/
def handleHumanResponse : Option Session → HRAction
  | none => .noSession
  | some s =>
    if s.status ≠ .active then .ignoredInactive
    else
      match s.currentPhase with
      | .clarifying => .runsClarifier
      | .scoping => .runsScope
      | .designing => .runsDesigner
      | .planning => .runsPlanner
      | .completed => .completedNoop

/-- Whether a routing decision invokes a capability. -/
def hrActionInvokesCapability : HRAction → Bool
  | .runsClarifier => true
  | .runsScope => true
  | .runsDesigner => true
  | .runsPlanner => true
  | _ => false

/-- The gating decision of `handleTeamLeadHumanResponse`. -/
inductive TLHRAction where
  | noSession
  | ignoredInactive
  | delegatedToRegular
  | processedAndRerun
deriving DecidableEq

/-- Embedding of the `handleTeamLeadHumanResponse` gate: only active or
paused sessions are processed; a session not in team-lead mode is handed
to the regular reply handler; otherwise the reply is recorded and the
engine re-runs. -/
def handleTeamLeadHumanResponse : Option Session → TLHRAction
  | none => .noSession
  | some s =>
    if s.status ≠ .active ∧ s.status ≠ .paused then .ignoredInactive
    else if s.metadata.mode ≠ some (str "team-lead") then .delegatedToRegular
    else .processedAndRerun

/-- Embedding of `handleAgentStop`: the status write it performs —
`none` when no session exists or the session is not active (the early
returns), `some cancelled` when an active session is stopped. -/
def handleAgentStop : Option Session → Option SessionStatus
  | none => none
  | some s => if s.status ≠ .active then none else some .cancelled

/-- The empty metadata bag. -/
def metaEmpty : SessionMeta :=
  ⟨none, none, none, none, none, none, none, none, none, none⟩

/-- A cancelled team-lead-mode session. -/
def cancelledSess : Session :=
  ⟨.cancelled, .clarifying, { metaEmpty with mode := some (str "team-lead") },
   []⟩

/-- A reasoning service answering plain text — no sentinel, no tools. -/
def svcSilent : List MEntry → Response :=
  fun _ => ⟨[.text (str "still working on the task")]⟩

/-- A lead service answering plain text — no tool selection. -/
def tlSvcSilent : List TLEntry → TLResponse :=
  fun _ => ⟨[.text (str "thinking about the ticket")]⟩

/-- A specialist oracle that succeeds with empty output. -/
def agentOracleEx : AgentName → Str → AgentResult :=
  fun _ _ => ⟨true, [], false, none, none, none, none⟩

/-- An active session with empty metadata. -/
def sessEx : Session := ⟨.active, .clarifying, metaEmpty, []⟩

/-! ## Complexity scoring and the escalation route -/

/-- The alternatives of the file-reference regex
`/\.(ts|tsx|js|jsx|css|json|md)/g`, in their alternation order (the JS
engine tries them left to right, so `ts` shadows `tsx` and `js` shadows
`jsx`). -/
def extAlternatives : List Str :=
  [str "ts", str "tsx", str "js", str "jsx", str "css", str "json", str "md"]

/-- The first alternative matching at a position after a dot. -/
def findExtAt (s : Str) : Option Str :=
  extAlternatives.find? (fun ext => List.isPrefixOf ext s)

/-- The counting scan, structurally recursive on a character-count fuel
(every step consumes at least one character, so the string length is
enough fuel). -/
def countExtRefsGo : Nat → Str → Nat
  | _, [] => 0
  | 0, _ => 0
  | fuel + 1, c :: rest =>
    if c = '.' then
      match findExtAt rest with
      | some ext => 1 + countExtRefsGo fuel (rest.drop ext.length)
      | none => countExtRefsGo fuel rest
    else countExtRefsGo fuel rest

/-- Counts the non-overlapping matches of the file-reference regex in
one left-to-right scan, as the JS global match does. -/
def countExtRefs (s : Str) : Nat := countExtRefsGo s.length s

/-- The threshold configuration consumed by the scorer. -/
structure ComplexityThresholds where
  fileCountThreshold : Nat
  complexKeywords : List Str
  scoreThreshold : Nat

/-- Modelled from the spec: the constant `COMPLEXITY_THRESHOLDS` is
imported from the tool-definitions module, whose defining code is not
among the available sources (only its consumers are).  The spec fixes the
escalation threshold at 25, a file-reference-count threshold that four
distinct extension references exceed, and a configured set of big-change
keywords drawn from restructuring and migration vocabulary, containing
`migrate`. -/
def COMPLEXITY_THRESHOLDS : ComplexityThresholds :=
  ⟨3, [str "refactor", str "migrate", str "restructure", str "rewrite"], 25⟩

/-- The analysis a scoring run returns (the human-readable reason list of
the source is presentation only and is not modelled). -/
structure ComplexityAnalysis where
  score : Nat
  useClaudeCode : Bool

/-- Embedding of `analyzeTaskComplexity`: over the lowercased
concatenation of plan and design, 30 points when the file-reference count
exceeds the threshold, 15 points for each configured keyword found, 25
for cross-cutting vocabulary, 20 for architectural vocabulary, and 20 for
`from`/`to` migration phrasing; escalation fires at the configured score
threshold. -/
def analyzeTaskComplexity (plan design : Str) : ComplexityAnalysis :=
  let combined := toLowerStr (plan ++ [' '] ++ design)
  let fileMatches := countExtRefs combined
  let fileScore :=
    if fileMatches > COMPLEXITY_THRESHOLDS.fileCountThreshold then 30 else 0
  let keywordScore :=
    15 * (COMPLEXITY_THRESHOLDS.complexKeywords.countP
      (fun keyword => includesStr keyword combined))
  let crossCuttingScore :=
    if includesStr (str "codebase") combined ||
        includesStr (str "project-wide") combined then 25 else 0
  let architecturalScore :=
    if includesStr (str "architectural") combined ||
        includesStr (str "restructure") combined ||
        includesStr (str "redesign") combined then 20 else 0
  let migrationScore :=
    if includesStr (str "from") combined && includesStr (str "to") combined &&
        (includesStr (str "migrate") combined ||
          includesStr (str "convert") combined) then 20 else 0
  let score := fileScore + keywordScore + crossCuttingScore +
    architecturalScore + migrationScore
  ⟨score, decide (score ≥ COMPLEXITY_THRESHOLDS.scoreThreshold)⟩

/-- The implementation strategies of the implementer router. -/
inductive ImplRoute where
  | executeApproved
  | planForApproval
  | basicTools
deriving DecidableEq

/-- The strategy decision of the implementer router
(`runImplementerAgent`, definitions variant): an approved external plan
is executed; otherwise a complex task with no pending plan requests an
external plan for human approval when plan generation succeeds, falling
back to the basic loop when the external tool is unavailable; everything
else runs the direct basic tool loop. -/
def implementerRoute (approvedPlan pendingPlan : Option Str)
    (useClaudeCode : Bool) (planGenerationOk : Bool) : ImplRoute :=
  if approvedPlan.isSome then .executeApproved
  else if useClaudeCode && pendingPlan.isNone then
    (if planGenerationOk then .planForApproval else .basicTools)
  else .basicTools

/-- The scenario plan of the spec: four distinct file-extension
references plus the word `migrate`. -/
def planC10 : Str := str "Update a.ts and b.jsx and c.css and d.json then migrate"

/-! ## Theorems -/
theorem includesStr_iff (needle haystack : Str) :
    includesStr needle haystack = true ↔ needle <:+: haystack := by
  induction haystack with
  | nil =>
    simp [includesStr, List.isPrefixOf_iff_prefix]
  | cons c rest ih =>
    simp [includesStr, List.isPrefixOf_iff_prefix, ih, List.infix_cons_iff]

theorem splitSlash_no_slash (s : Str) : ∀ x ∈ splitSlash s, '/' ∉ x := by
  induction s with
  | nil => intro x hx; simp [splitSlash] at hx; simp [hx]
  | cons c rest ih =>
    intro x hx
    simp only [splitSlash] at hx
    split at hx
    · rcases List.mem_cons.mp hx with h | h
      · simp [h]
      · exact ih x h
    · rename_i hc
      rcases hsp : splitSlash rest with _ | ⟨h0, t0⟩
      · rw [hsp] at hx
        simp at hx
        simp only [hx, List.mem_singleton]
        exact fun h => hc h.symm
      · rw [hsp] at hx
        rcases List.mem_cons.mp hx with h | h
        · subst h
          intro hmem
          rcases List.mem_cons.mp hmem with h' | h'
          · exact hc h'.symm
          · exact ih h0 (hsp ▸ List.mem_cons_self h0 t0) h'
        · exact ih x (hsp ▸ List.mem_cons_of_mem h0 h) 

theorem validSegs_normStep {acc : List Str} {s : Str}
    (hacc : validSegs acc) (hs : '/' ∉ s) : validSegs (normStep acc s) := by
  unfold normStep
  split
  · exact hacc
  · split
    · exact fun x hx => hacc x (List.dropLast_subset acc hx)
    · intro x hx
      rcases List.mem_append.mp hx with h | h
      · exact hacc x h
      · rename_i h1 h2
        rw [List.mem_singleton.mp h]
        push_neg at h1
        exact ⟨h1.1, hs, h1.2, h2⟩

theorem validSegs_normSegs (l : List Str) (acc : List Str)
    (hacc : validSegs acc) (hl : ∀ s ∈ l, '/' ∉ s) :
    validSegs (normSegs acc l) := by
  induction l generalizing acc with
  | nil => exact hacc
  | cons s rest ih =>
    exact ih (normStep acc s)
      (validSegs_normStep hacc (hl s (List.mem_cons_self s rest)))
      (fun x hx => hl x (List.mem_cons_of_mem s hx))

theorem validSegs_resolveWith (rootSegs : List Str) (p : Str)
    (hroot : validSegs rootSegs) : validSegs (resolveWith rootSegs p) := by
  unfold resolveWith
  split
  · exact validSegs_normSegs _ [] (by intro s hs; simp at hs)
      (splitSlash_no_slash p)
  · exact validSegs_normSegs _ rootSegs hroot (splitSlash_no_slash p)

theorem noslash_sep_eq {x y l m : Str} (hx : '/' ∉ x) (hy : '/' ∉ y)
    (h : x ++ '/' :: l = y ++ '/' :: m) : x = y ∧ l = m := by
  induction x generalizing y with
  | nil =>
    cases y with
    | nil => simpa using h
    | cons d y' =>
      exfalso
      simp only [List.nil_append, List.cons_append, List.cons.injEq] at h
      exact hy (h.1 ▸ List.mem_cons_self d y')
  | cons c x' ih =>
    cases y with
    | nil =>
      exfalso
      simp only [List.nil_append, List.cons_append, List.cons.injEq] at h
      exact hx (h.1 ▸ List.mem_cons_self c x')
    | cons d y' =>
      simp only [List.cons_append, List.cons.injEq] at h
      have := ih (fun hm => hx (List.mem_cons_of_mem c hm))
        (fun hm => hy (List.mem_cons_of_mem d hm)) h.2
      exact ⟨by rw [h.1, this.1], this.2⟩

theorem noslash_sep_pre {x y l m : Str} (hx : '/' ∉ x) (hy : '/' ∉ y)
    (h : (x ++ '/' :: l) <+: (y ++ '/' :: m)) : x = y ∧ l <+: m := by
  induction x generalizing y with
  | nil =>
    cases y with
    | nil => simpa using h
    | cons d y' =>
      exfalso
      simp only [List.nil_append, List.cons_append,
        List.cons_prefix_cons] at h
      exact hy (h.1 ▸ List.mem_cons_self d y')
  | cons c x' ih =>
    cases y with
    | nil =>
      exfalso
      simp only [List.nil_append, List.cons_append,
        List.cons_prefix_cons] at h
      exact hx (h.1 ▸ List.mem_cons_self c x')
    | cons d y' =>
      simp only [List.cons_append, List.cons_prefix_cons] at h
      have := ih (fun hm => hx (List.mem_cons_of_mem c hm))
        (fun hm => hy (List.mem_cons_of_mem d hm)) h.2
      exact ⟨by rw [h.1, this.1], this.2⟩

theorem encodeSegs_sep (a : List Str) :
    ∃ t, encodeSegs a ++ ['/'] = '/' :: t := by
  cases a with
  | nil => exact ⟨[], rfl⟩
  | cons s rest => exact ⟨s ++ encodeSegs rest ++ ['/'], by simp [encodeSegs]⟩

theorem encodeSegs_inj : ∀ a b : List Str, sepFree a → sepFree b →
    encodeSegs a = encodeSegs b → a = b := by
  intro a
  induction a with
  | nil =>
    intro b _ _ h
    cases b with
    | nil => rfl
    | cons y b' => simp [encodeSegs] at h
  | cons x a' ih =>
    intro b ha hb h
    cases b with
    | nil => simp [encodeSegs] at h
    | cons y b' =>
      simp only [encodeSegs, List.cons_append, List.cons.injEq, true_and] at h
      have hx := ha x (List.mem_cons_self x a')
      have hy := hb y (List.mem_cons_self y b')
      have ha' : sepFree a' := fun s hs => ha s (List.mem_cons_of_mem x hs)
      have hb' : sepFree b' := fun s hs => hb s (List.mem_cons_of_mem y hs)
      cases a' with
      | nil =>
        cases b' with
        | nil => simp only [encodeSegs, List.append_nil] at h; rw [h]
        | cons v w =>
          exfalso
          simp only [encodeSegs, List.append_nil] at h
          exact hx.2 (h ▸ List.mem_append_right y
            (List.mem_cons_self '/' (v ++ encodeSegs w)))
      | cons s t =>
        cases b' with
        | nil =>
          exfalso
          simp only [encodeSegs, List.append_nil] at h
          exact hy.2 (h ▸ List.mem_append_right x
            (List.mem_cons_self '/' (s ++ encodeSegs t)))
        | cons v w =>
          simp only [encodeSegs, List.append_assoc] at h
          have hsep := noslash_sep_eq hx.2 hy.2 h
          have htail : encodeSegs (s :: t) = encodeSegs (v :: w) := by
            simp only [encodeSegs]
            exact congrArg (List.cons '/') hsep.2
          have hab := ih (v :: w) ha' hb' htail
          rw [hsep.1, hab]

theorem encodeSegs_pre_segs : ∀ a b : List Str, sepFree a → sepFree b →
    (encodeSegs a ++ ['/']) <+: encodeSegs b → a <+: b := by
  intro a
  induction a with
  | nil => intro b _ _ _; exact ⟨b, rfl⟩
  | cons x a' ih =>
    intro b ha hb h
    cases b with
    | nil =>
      exfalso
      rcases h with ⟨t, ht⟩
      simp [encodeSegs] at ht
    | cons y b' =>
      have hx := ha x (List.mem_cons_self x a')
      have hy := hb y (List.mem_cons_self y b')
      have ha' : sepFree a' := fun s hs => ha s (List.mem_cons_of_mem x hs)
      have hb' : sepFree b' := fun s hs => hb s (List.mem_cons_of_mem y hs)
      simp only [encodeSegs, List.cons_append, List.cons_prefix_cons,
        true_and, List.append_assoc] at h
      rcases encodeSegs_sep a' with ⟨La, hLa⟩
      rw [hLa] at h
      cases b' with
      | nil =>
        exfalso
        simp only [encodeSegs, List.append_nil] at h
        rcases h with ⟨t, ht⟩
        exact hy.2 (ht ▸ List.mem_append_left t
          (List.mem_append_right x (List.mem_cons_self '/' La)))
      | cons v w =>
        simp only [encodeSegs] at h
        have := noslash_sep_pre hx.2 hy.2 h
        have hrec : a' <+: (v :: w) := by
          refine ih (v :: w) ha' hb' ?_
          rw [hLa]
          simp only [encodeSegs]
          exact List.cons_prefix_cons.mpr ⟨rfl, this.2⟩
        rw [this.1]
        exact List.cons_prefix_cons.mpr ⟨rfl, hrec⟩

theorem validSegs_sepFree {l : List Str} (h : validSegs l) : sepFree l :=
  fun s hs => ⟨(h s hs).1, (h s hs).2.1⟩

/-- Whenever the hardened `resolvePath` accepts a caller-supplied path, the
resolved string is the rendering of a segment list extending the
configured root segments: the resolved location is the root itself or a
genuine descendant of it. -/
theorem resolvePath_confined (rootSegs : List Str) (hroot : validSegs rootSegs)
    (rel p : Str) (h : resolvePath rootSegs rel = some p) :
    ∃ segs, p = joinSegs segs ∧ rootSegs <+: segs ∧ validSegs segs := by
  simp only [resolvePath] at h
  split at h
  · rename_i hcond
    have hp : p = joinSegs (resolveWith rootSegs
        (removeDotDotSlash (dropLeadingSlashes rel))) := by
      exact (Option.some.injEq _ _ ▸ h).symm
    set RS := resolveWith rootSegs (removeDotDotSlash (dropLeadingSlashes rel))
      with hRS
    have hvalid : validSegs RS := validSegs_resolveWith _ _ hroot
    refine ⟨RS, hp, ?_, hvalid⟩
    by_cases hr : rootSegs = []
    · exact hr ▸ ⟨RS, rfl⟩
    · have hjr : joinSegs rootSegs = encodeSegs rootSegs := if_neg hr
      cases hRS' : RS with
      | nil =>
        exfalso
        rw [hRS'] at hcond
        cases rootSegs with
        | nil => exact hr rfl
        | cons r rs =>
          have hrne : r ≠ [] := (hroot r (List.mem_cons_self r rs)).1
          have hrl : 0 < r.length := List.length_pos.mpr hrne
          have h2 : joinSegs (r :: rs) = encodeSegs (r :: rs) :=
            if_neg (by simp)
          have h3 : 1 + r.length ≤ (encodeSegs (r :: rs)).length := by
            simp [encodeSegs]
            omega
          rcases hcond with hc | hc
          · have hlen := congrArg List.length hc
            rw [h2] at hlen
            simp [joinSegs] at hlen
            omega
          · rcases List.isPrefixOf_iff_prefix.mp hc with ⟨t, ht⟩
            have hlen := congrArg List.length ht
            rw [h2] at hlen
            simp [joinSegs, List.length_append] at hlen
            omega
      | cons v vs =>
        rw [hRS'] at hcond hvalid
        have hjv : joinSegs (v :: vs) = encodeSegs (v :: vs) := if_neg (by simp)
        rcases hcond with hc | hc
        · rw [hjv, hjr] at hc
          have hvr := encodeSegs_inj _ _ (validSegs_sepFree hvalid)
            (validSegs_sepFree hroot) hc
          rw [hvr]
        · rw [hjv, hjr] at hc
          exact encodeSegs_pre_segs rootSegs (v :: vs)
            (validSegs_sepFree hroot) (validSegs_sepFree hvalid)
            ( List.isPrefixOf_iff_prefix.mp hc)
  · simp at h

/-- Claim C1, counterexample to the stated error kind: the caller-supplied
path `.env/....//..` contains `..` segments and its resolution escapes the
root (`resolvePath` rejects it), so the claim calls this write violating
and requires a path-traversal error; the write is indeed aborted before
any filesystem access, but because the raw path textually extends the
denylisted `.env` the earlier protected-path check fires first and the
reported error is the `ProtectedPath` one, not the path-traversal one. -/
theorem c1_counterexample :
    resolvePath rootEx (str ".env/....//..") = none ∧
    writeFile rootEx fsEx (str ".env/....//..") (str "x") =
      (fsEx, protectedFailure (str ".env/....//..")) ∧
    protectedFailure (str ".env/....//..") ≠ travFailure := by
  refine ⟨by decide, by decide, by decide⟩

/-- Claim C1 (amended): for every caller-supplied path, resolution never
yields a location outside the configured root — an accepted resolution
renders a segment list extending the root segments — and when resolution
rejects the path, read and list abort with the path-traversal error and
write and apply-edit abort with the path-traversal error unless the raw
path also matches the protected-path denylist, in which case the
protected-path error is reported; in every aborted case the filesystem is
returned unchanged and no filesystem operation is executed. -/
theorem c1_path_confinement (rootSegs : List Str) (hroot : validSegs rootSegs) :
    (∀ rel p, resolvePath rootSegs rel = some p →
      ∃ segs, p = joinSegs segs ∧ rootSegs <+: segs ∧ validSegs segs) ∧
    (∀ rel, resolvePath rootSegs rel = none →
      (∀ fs, readFile rootSegs fs rel = travFailure) ∧
      (∀ env recursive, listDirectory rootSegs env rel recursive = travFailure) ∧
      (∀ fs content, writeFile rootSegs fs rel content =
        (fs, if isProtectedPath rel then protectedFailure rel else travFailure)) ∧
      (∀ fs original replacement,
        applyDiff rootSegs fs rel original replacement =
          (fs, if isProtectedPath rel then protectedFailure rel
               else travFailure))) := by
  constructor
  · exact fun rel p h => resolvePath_confined rootSegs hroot rel p h
  · intro rel hnone
    refine ⟨?_, ?_, ?_, ?_⟩
    · intro fs
      simp [readFile, hnone]
    · intro env recursive
      simp [listDirectory, hnone]
    · intro fs content
      cases hp : isProtectedPath rel <;> simp [writeFile, hnone, hp]
    · intro fs original replacement
      cases hp : isProtectedPath rel <;> simp [applyDiff, hnone, hp]

/-- Witness for C1: the theorem applied at the concrete root `/repo`, to
the accepted absolute-prefix path `/abs/x` and the rejected traversal
path `..`. -/
theorem c1_path_confinement_witness :
    (∃ segs, str "/repo/abs/x" = joinSegs segs ∧ rootEx <+: segs ∧
      validSegs segs) ∧
    (∀ fs, readFile rootEx fs (str "..") = travFailure) ∧
    (∀ fs content, writeFile rootEx fs (str "..") content =
      (fs, if isProtectedPath (str "..") then protectedFailure (str "..")
           else travFailure)) := by
  have h := c1_path_confinement rootEx (by decide)
  exact ⟨h.1 (str "/abs/x") (str "/repo/abs/x") (by decide),
    (h.2 (str "..") (by decide)).1,
    (h.2 (str "..") (by decide)).2.2.1⟩

/-- Claim C2: every path that exactly matches a denylisted entry or is
nested under one (for either path-separator convention) makes write and
apply-edit fail with the `ProtectedPath`-kind result and leaves the
filesystem unchanged. -/
theorem c2_protected_paths (rel : Str)
    (h : ∃ p ∈ PROTECTED_PATHS,
      rel = p ∨ (p ++ ['/']) <+: rel ∨ (p ++ ['\\']) <+: rel) :
    ∀ rootSegs fs content original replacement,
      writeFile rootSegs fs rel content = (fs, protectedFailure rel) ∧
      applyDiff rootSegs fs rel original replacement =
        (fs, protectedFailure rel) := by
  have hp : isProtectedPath rel = true := by
    rcases h with ⟨p, hmem, hcase⟩
    unfold isProtectedPath
    rw [List.any_eq_true]
    refine ⟨p, hmem, ?_⟩
    simp only [Bool.or_eq_true, beq_iff_eq, List.isPrefixOf_iff_prefix]
    tauto
  intro rootSegs fs content original replacement
  exact ⟨by simp [writeFile, hp], by simp [applyDiff, hp]⟩

/-- Witness for C2: the theorem applied to the denylisted `.env` itself. -/
theorem c2_protected_paths_witness :
    writeFile rootEx fsEx (str ".env") (str "x") =
      (fsEx, protectedFailure (str ".env")) ∧
    applyDiff rootEx fsEx (str ".env") (str "a") (str "b") =
      (fsEx, protectedFailure (str ".env")) := by
  have h := c2_protected_paths (str ".env")
    ⟨str ".env", by decide, Or.inl rfl⟩ rootEx fsEx (str "x") (str "a") (str "b")
  exact h

/-- Claim C3: a command neither equal to an allow-listed entry nor
starting with one followed by a space is rejected with the `NotAllowed`
failure and no process is spawned (the result is independent of the
executor oracle and the spawn flag stays false); an allowed command whose
execution fails (non-zero exit) yields a failure result that still carries
the truncated captured stdout. -/
theorem c3_command_allowlist :
    (∀ command,
      (¬ ∃ a ∈ ALLOWED_COMMANDS, command = a ∨ (a ++ [' ']) <+: command) →
      ∀ exec, runCommand exec command = (notAllowedResult, false)) ∧
    (∀ command exec code stdout stderr message,
      (∃ a ∈ ALLOWED_COMMANDS, command = a ∨ (a ++ [' ']) <+: command) →
      exec command = .err code stdout stderr message →
      runCommand exec command =
        (⟨false, truncateOutput stdout,
          some (if stderr ≠ [] then stderr else message)⟩, true)) := by
  constructor
  · intro command h exec
    have hc : commandAllowed command = false := by
      rw [Bool.eq_false_iff]
      intro hct
      apply h
      unfold commandAllowed at hct
      rw [List.any_eq_true] at hct
      rcases hct with ⟨a, hmem, ha⟩
      simp only [Bool.or_eq_true, beq_iff_eq, List.isPrefixOf_iff_prefix] at ha
      exact ⟨a, hmem, ha⟩
    simp [runCommand, hc]
  · intro command exec code stdout stderr message h hexec
    have hc : commandAllowed command = true := by
      unfold commandAllowed
      rw [List.any_eq_true]
      rcases h with ⟨a, hmem, ha⟩
      refine ⟨a, hmem, ?_⟩
      simp only [Bool.or_eq_true, beq_iff_eq, List.isPrefixOf_iff_prefix]
      exact ha
    simp [runCommand, hc, hexec]

/-- Witness for C3: `rm -rf /` is rejected without consulting the
executor; `npm test` with a failing execution keeps the captured output. -/
theorem c3_command_allowlist_witness :
    runCommand (fun _ => .ok [] []) (str "rm -rf /") =
      (notAllowedResult, false) ∧
    runCommand (fun _ => .err (some 1) (str "out") (str "err") (str "boom"))
        (str "npm test") =
      (⟨false, truncateOutput (str "out"),
        some (if str "err" ≠ [] then str "err" else str "boom")⟩, true) := by
  exact ⟨c3_command_allowlist.1 (str "rm -rf /") (by decide) _,
    c3_command_allowlist.2 (str "npm test") _ (some 1) (str "out")
      (str "err") (str "boom") ⟨str "npm test", by decide, Or.inl rfl⟩ rfl⟩

/-- Claim C4: the denylist check runs on the raw caller-supplied string
before any normalization, so `./.env` — which is not a textual extension
of any denylisted entry but resolves to exactly the same location inside
the root as the denylisted `.env` — passes the check, and both write and
apply-edit succeed and modify the denylisted file. -/
theorem c4_raw_denylist_check :
    isProtectedPath (str "./.env") = false ∧
    isProtectedPath (str ".env") = true ∧
    resolvePath rootEx (str "./.env") = some (str "/repo/.env") ∧
    resolvePath rootEx (str ".env") = some (str "/repo/.env") ∧
    (writeFile rootEx fsEx (str "./.env") (str "SECRET")).2.success = true ∧
    fsGet (writeFile rootEx fsEx (str "./.env") (str "SECRET")).1
      (str "/repo/.env") = some (str "SECRET") ∧
    fsGet fsEx (str "/repo/.env") = some (str "OLD") ∧
    (applyDiff rootEx fsEx (str "./.env") (str "OLD") (str "NEW")).2.success
      = true ∧
    fsGet (applyDiff rootEx fsEx (str "./.env") (str "OLD") (str "NEW")).1
      (str "/repo/.env") = some (str "NEW") := by
  refine ⟨by decide, by decide, by decide, by decide, by decide, by decide,
    by decide, by decide, by decide⟩

/-- First-occurrence characterization of `replaceFirst`: when the original
occurs, the content splits around its leftmost occurrence, the result
replaces exactly that occurrence, and the rest of the content is kept. -/
theorem replaceFirst_spec (orig repl : Str) : ∀ content,
    includesStr orig content = true →
    ∃ pre post, content = pre ++ orig ++ post ∧
      replaceFirst orig repl content = pre ++ repl ++ post ∧
      ∀ pre2 post2, content = pre2 ++ orig ++ post2 →
        pre.length ≤ pre2.length := by
  intro content
  induction content with
  | nil =>
    intro h
    have horig : orig = [] := by
      have hi := (includesStr_iff orig []).mp h
      simpa using hi
    subst horig
    refine ⟨[], [], by simp, ?_, fun pre2 post2 _ => by simp⟩
    simp [replaceFirst]
  | cons c cs ih =>
    intro h
    by_cases hpre : List.isPrefixOf orig (c :: cs)
    · rcases List.isPrefixOf_iff_prefix.mp hpre with ⟨t, ht⟩
      refine ⟨[], t, by simp [← ht], ?_, fun pre2 post2 _ => by simp⟩
      simp only [replaceFirst, if_pos hpre]
      rw [← ht]
      simp [List.drop_left]
    · have hcs : includesStr orig cs = true := by
        have hinf := (includesStr_iff orig (c :: cs)).mp h
        rcases List.infix_cons_iff.mp hinf with hx | hx
        · exact absurd ( List.isPrefixOf_iff_prefix.mpr hx) hpre
        · exact (includesStr_iff orig cs).mpr hx
      rcases ih hcs with ⟨pre', post', heq, hrep, hmin⟩
      refine ⟨c :: pre', post', by simp [heq], ?_, ?_⟩
      · simp only [replaceFirst, if_neg hpre, hrep]
        simp
      · intro pre2 post2 h2
        cases pre2 with
        | nil =>
          exfalso
          apply hpre
          apply List.isPrefixOf_iff_prefix.mpr
          exact ⟨post2, by simpa using h2.symm⟩
        | cons d pre2' =>
          have htl : cs = pre2' ++ orig ++ post2 := by
            have := h2
            simp only [List.cons_append, List.cons.injEq] at this
            exact this.2
          simp only [List.length_cons]
          exact Nat.succ_le_succ (hmin pre2' post2 htl)

/-- Claim C5: on an existing, unprotected, in-root file, apply-edit fails
with the `NoMatch`-kind result and leaves the filesystem unchanged when
the exact original substring does not occur (in particular when the file
already holds only the replacement — the re-application scenario);
when it does occur, exactly the leftmost occurrence is replaced by the
replacement text, the surrounding content is preserved, and the file is
rewritten.  The embedding of the JS string `replace` assumes a
replacement free of `$` placeholder patterns, hence the last hypothesis. -/
theorem c5_apply_edit_first_occurrence
    (rootSegs : List Str) (fs : Fs) (rel orig repl full content : Str)
    (hp : isProtectedPath rel = false)
    (hres : resolvePath rootSegs rel = some full)
    (hget : fsGet fs full = some content)
    (_hrepl : '$' ∉ repl) :
    (includesStr orig content = false →
      applyDiff rootSegs fs rel orig repl =
        (fs, ⟨false, [], some noMatchMsg⟩)) ∧
    (includesStr orig content = true →
      applyDiff rootSegs fs rel orig repl =
        (fsSet fs full (replaceFirst orig repl content),
         ⟨true, str "Successfully applied diff to " ++ rel, none⟩) ∧
      ∃ pre post, content = pre ++ orig ++ post ∧
        replaceFirst orig repl content = pre ++ repl ++ post ∧
        ∀ pre2 post2, content = pre2 ++ orig ++ post2 →
          pre.length ≤ pre2.length) := by
  constructor
  · intro hno
    simp [applyDiff, hp, hres, hget, hno]
  · intro hyes
    constructor
    · simp [applyDiff, hp, hres, hget, hyes]
    · exact replaceFirst_spec orig repl content hyes

/-- Witness for C5: applying (`hello`, `bye`) replaces only the first of
two occurrences, and re-applying the same pair to a file that already
holds only `bye` fails with `NoMatch` instead of silently succeeding. -/
theorem c5_apply_edit_witness :
    applyDiff rootEx fsC5 (str "a.txt") (str "hello") (str "bye") =
      (fsSet fsC5 (str "/repo/a.txt")
        (replaceFirst (str "hello") (str "bye") (str "hello world hello")),
       ⟨true, str "Successfully applied diff to " ++ str "a.txt", none⟩) ∧
    replaceFirst (str "hello") (str "bye") (str "hello world hello") =
      str "bye world hello" ∧
    applyDiff rootEx fsC5b (str "a.txt") (str "hello") (str "bye") =
      (fsC5b, ⟨false, [], some noMatchMsg⟩) := by
  have h1 := c5_apply_edit_first_occurrence rootEx fsC5 (str "a.txt")
    (str "hello") (str "bye") (str "/repo/a.txt") (str "hello world hello")
    (by decide) (by decide) (by decide) (by decide)
  have h2 := c5_apply_edit_first_occurrence rootEx fsC5b (str "a.txt")
    (str "hello") (str "bye") (str "/repo/a.txt") (str "bye world")
    (by decide) (by decide) (by decide) (by decide)
  exact ⟨(h1.2 (by decide)).1, by decide, h2.1 (by decide)⟩

/-- The loop reports at most `iter + fuel` iterations. -/
theorem implLoop_iterations_le (rootSegs : List Str) (env : ExecEnv)
    (svc : List MEntry → Response) : ∀ fuel fs messages changed iter,
    iterationsOf (implLoop rootSegs env svc fs messages changed iter fuel) ≤
      iter + fuel := by
  intro fuel
  induction fuel with
  | zero => intro fs m c i; simp [implLoop, iterationsOf]
  | succ n ih =>
    intro fs m c i
    simp only [implLoop]
    split
    · simp [iterationsOf]
    · split
      · simp [iterationsOf]
      · split
        · exact le_trans (ih _ _ _ _) (by omega)
        · exact le_trans (ih _ _ _ _) (by omega)

/-- A service that never emits a sentinel and never requests tools drives
the loop to the ceiling: the outcome is `maxedOut` with the accumulated
changed-file list and exactly `iter + fuel` iterations. -/
theorem implLoop_no_sentinel (rootSegs : List Str) (env : ExecEnv)
    (svc : List MEntry → Response)
    (hsvc : ∀ m, includesStr SENT_COMPLETE (textOf (svc m)) = false ∧
      includesStr SENT_BLOCKED (textOf (svc m)) = false ∧
      toolUseBlocksOf (svc m) = []) :
    ∀ fuel fs messages changed iter,
      implLoop rootSegs env svc fs messages changed iter fuel =
        .maxedOut changed (iter + fuel) := by
  intro fuel
  induction fuel with
  | zero => intro fs m c i; simp [implLoop]
  | succ n ih =>
    intro fs m c i
    have h := hsvc m
    simp only [implLoop, h.1, h.2.1, h.2.2, Bool.false_eq_true, if_false,
      List.isEmpty_nil, if_true]
    rw [ih]
    congr 1
    omega

/-- Claim C7: a completion or blocked sentinel in the textual portion of a
response ends the loop on that very iteration — the text is scanned before
the tool-call blocks are even examined, so the statements hold for every
response, including one that also requests tool calls — and a completion
sentinel on the very first response makes the run return success after
exactly one iteration with an empty changed-file list. -/
theorem c7_sentinel_ends_loop :
    (∀ rootSegs env svc fs messages changed iter fuel,
      includesStr SENT_COMPLETE (textOf (svc messages)) = true →
      implLoop rootSegs env svc fs messages changed iter (fuel + 1) =
        .completed changed (iter + 1)) ∧
    (∀ rootSegs env svc fs messages changed iter fuel,
      includesStr SENT_COMPLETE (textOf (svc messages)) = false →
      includesStr SENT_BLOCKED (textOf (svc messages)) = true →
      implLoop rootSegs env svc fs messages changed iter (fuel + 1) =
        .blocked (blockReason (textOf (svc messages))) (iter + 1)) ∧
    (∀ rootSegs env svc fs baseContext,
      includesStr SENT_COMPLETE
        (textOf (svc [.userText (baseContext ++ beginImplMsg)])) = true →
      runImplementerAgent rootSegs env svc fs baseContext =
        .completed [] 1) := by
  refine ⟨?_, ?_, ?_⟩
  · intro rootSegs env svc fs m c i f h
    simp [implLoop, h]
  · intro rootSegs env svc fs m c i f h1 h2
    simp [implLoop, h1, h2]
  · intro rootSegs env svc fs ctx h
    have h100 : (100 : Nat) = 99 + 1 := rfl
    unfold runImplementerAgent implementerMaxIterations
    rw [h100]
    simp [implLoop, h]

/-- Witness for C7: the scripted service returns the completion sentinel
together with a tool-call request on iteration 1, and the run returns
success after exactly one iteration with an empty changed-file list. -/
theorem c7_sentinel_ends_loop_witness :
    runImplementerAgent rootEx envEx svcC7 fsEx (str "ctx") =
      .completed [] 1 ∧
    (toolUseBlocksOf (svcC7 [.userText (str "ctx" ++ beginImplMsg)])).length
      = 1 := by
  exact ⟨c7_sentinel_ends_loop.2.2 rootEx envEx svcC7 fsEx (str "ctx")
    (by decide), rfl⟩

/-- The recording step applied to the changed-file list by one tool
call. -/
theorem recordPath_mem (tc : ToolCall) (changed : List Str) (p : Str) :
    (p ∈ (if tc.name == str "write_file" || tc.name == str "apply_diff" then
        if tc.input.path ∈ changed then changed
        else changed ++ [tc.input.path]
      else changed)) ↔
    (p ∈ changed ∨
      ((tc.name = str "write_file" ∨ tc.name = str "apply_diff") ∧
        tc.input.path = p)) := by
  split
  · rename_i htc
    simp only [Bool.or_eq_true, beq_iff_eq] at htc
    split
    · rename_i hin
      constructor
      · exact fun h => Or.inl h
      · rintro (h | ⟨_, hp⟩)
        · exact h
        · exact hp ▸ hin
    · simp only [List.mem_append, List.mem_singleton]
      constructor
      · rintro (h | h)
        · exact Or.inl h
        · exact Or.inr ⟨htc, h.symm⟩
      · rintro (h | ⟨_, hp⟩)
        · exact Or.inl h
        · exact Or.inr hp.symm
  · rename_i htc
    simp only [Bool.or_eq_true, beq_iff_eq] at htc
    push_neg at htc
    constructor
    · exact fun h => Or.inl h
    · rintro (h | ⟨hn, _⟩)
      · exact h
      · rcases hn with hn | hn
        · exact absurd hn htc.1
        · exact absurd hn htc.2

/-- Membership in the changed-file list after executing a block of tool
calls: a path is recorded exactly when it was already recorded or some
`write_file` or `apply_diff` call in the block targets it — with no
condition on the result of the call. -/
theorem execTools_mem_changed (rootSegs : List Str) (env : ExecEnv) :
    ∀ (tcs : List ToolCall) (fs : Fs) (changed : List Str) (p : Str),
    (p ∈ (execTools rootSegs env fs changed tcs).2.2 ↔
      (p ∈ changed ∨ ∃ tc ∈ tcs,
        (tc.name = str "write_file" ∨ tc.name = str "apply_diff") ∧
        tc.input.path = p)) := by
  intro tcs
  induction tcs with
  | nil => intro fs changed p; simp [execTools]
  | cons tc rest ih =>
    intro fs changed p
    simp only [execTools]
    rw [ih]
    rw [recordPath_mem tc changed p]
    simp only [List.exists_mem_cons_iff]
    rw [or_assoc]

/-- The recording step keeps the changed-file list duplicate-free. -/
theorem recordPath_nodup (tc : ToolCall) (changed : List Str)
    (h : changed.Nodup) :
    (if tc.name == str "write_file" || tc.name == str "apply_diff" then
        if tc.input.path ∈ changed then changed
        else changed ++ [tc.input.path]
      else changed).Nodup := by
  split
  · split
    · exact h
    · rename_i hnin
      rw [List.nodup_append]
      exact ⟨h, List.nodup_singleton _, by
        rw [List.disjoint_singleton]
        exact hnin⟩
  · exact h

/-- Executing a block of tool calls keeps the changed-file list
duplicate-free. -/
theorem execTools_changed_nodup (rootSegs : List Str) (env : ExecEnv) :
    ∀ (tcs : List ToolCall) (fs : Fs) (changed : List Str),
    changed.Nodup → (execTools rootSegs env fs changed tcs).2.2.Nodup := by
  intro tcs
  induction tcs with
  | nil => intro fs changed h; simpa [execTools] using h
  | cons tc rest ih =>
    intro fs changed h
    simp only [execTools]
    exact ih _ _ (recordPath_nodup tc changed h)

/-- The loop keeps the changed-file list duplicate-free. -/
theorem implLoop_changed_nodup (rootSegs : List Str) (env : ExecEnv)
    (svc : List MEntry → Response) : ∀ fuel fs messages changed iter,
    changed.Nodup →
    (changedOf (implLoop rootSegs env svc fs messages changed iter fuel)).Nodup
    := by
  intro fuel
  induction fuel with
  | zero => intro fs m c i h; simpa [implLoop, changedOf] using h
  | succ n ih =>
    intro fs m c i h
    simp only [implLoop]
    split
    · simpa [changedOf] using h
    · split
      · simp [changedOf]
      · split
        · exact ih _ _ _ _ h
        · exact ih _ _ _ _
            (execTools_changed_nodup rootSegs env _ _ _ h)

/-- Claim C8 (amended): during one implementer loop run, a `write_file` or
`apply_diff` tool call records its target path into the changed-file list
whenever the call is made — whether or not the call succeeds — and the
resulting list never contains duplicate paths; in particular both loop
entry points always report a duplicate-free changed-file list. -/
theorem c8_changed_file_recording :
    (∀ rootSegs env fs changed tcs p,
      (p ∈ (execTools rootSegs env fs changed tcs).2.2 ↔
        (p ∈ changed ∨ ∃ tc ∈ tcs,
          (tc.name = str "write_file" ∨ tc.name = str "apply_diff") ∧
          tc.input.path = p))) ∧
    (∀ rootSegs env fs changed tcs, changed.Nodup →
      (execTools rootSegs env fs changed tcs).2.2.Nodup) ∧
    (∀ rootSegs env svc fs baseContext,
      (changedOf (runImplementerAgent rootSegs env svc fs baseContext)).Nodup)
    ∧
    (∀ rootSegs env svc fs baseContext initialContext,
      (changedOf
        (runBasicImplementer rootSegs env svc fs baseContext
          initialContext)).Nodup) := by
  refine ⟨?_, ?_, ?_, ?_⟩
  · intro rootSegs env fs changed tcs p
    exact execTools_mem_changed rootSegs env tcs fs changed p
  · intro rootSegs env fs changed tcs h
    exact execTools_changed_nodup rootSegs env tcs fs changed h
  · intro rootSegs env svc fs baseContext
    exact implLoop_changed_nodup rootSegs env svc _ _ _ _ _ List.nodup_nil
  · intro rootSegs env svc fs baseContext initialContext
    exact implLoop_changed_nodup rootSegs env svc _ _ _ _ _ List.nodup_nil

/-- Witness for C8: a single failed write into the block records its
path, and the resulting list is duplicate-free. -/
theorem c8_changed_file_recording_witness :
    (str "b.txt" ∈ (execTools rootEx envEx fsEx []
      [⟨str "t1", str "write_file", writeInput (str "b.txt") (str "x")⟩]).2.2)
    ∧
    (execTools rootEx envEx fsEx []
      [⟨str "t1", str "write_file",
        writeInput (str "b.txt") (str "x")⟩]).2.2.Nodup := by
  constructor
  · exact (c8_changed_file_recording.1 rootEx envEx fsEx []
      [⟨str "t1", str "write_file", writeInput (str "b.txt") (str "x")⟩]
      (str "b.txt")).mpr
      (Or.inr ⟨⟨str "t1", str "write_file", writeInput (str "b.txt") (str "x")⟩,
        List.mem_singleton.mpr rfl, Or.inl rfl, rfl⟩)
  · exact c8_changed_file_recording.2.1 rootEx envEx fsEx []
      [⟨str "t1", str "write_file", writeInput (str "b.txt") (str "x")⟩]
      List.nodup_nil

/-- Claim C8, counterexample to the stated recording condition: the
scripted run makes exactly one write call, to the denylisted `.env`; the
call fails (the execution surface refuses the protected path, and the
filesystem still holds the old content), yet the run completes with
`.env` recorded in its changed-file list — a failed write does not add
nothing, contradicting the claim that a path is recorded exactly when the
call succeeds. -/
theorem c8_counterexample :
    runImplementerAgent rootEx envEx svcC8 fsEx (str "ctx") =
      .completed [str ".env"] 2 ∧
    (executeTool rootEx envEx fsEx (str "write_file")
      (writeInput (str ".env") (str "x"))).2.success = false ∧
    (executeTool rootEx envEx fsEx (str "write_file")
      (writeInput (str ".env") (str "x"))).1 = fsEx := by
  refine ⟨by decide, by decide, by decide⟩

/-- The lead loop performs at most `iter + fuel` iterations. -/
theorem tlLoop_iterations_le (svc : List TLEntry → TLResponse)
    (agentOracle : AgentName → Str → AgentResult) :
    ∀ fuel sess messages dels iter,
    (tlLoop svc agentOracle sess messages dels iter fuel).2.2 ≤ iter + fuel := by
  intro fuel
  induction fuel with
  | zero => intro sess m d i; simp [tlLoop]
  | succ n ih =>
    intro sess m d i
    simp only [tlLoop]
    split
    · exact le_trans (ih _ _ _ _) (by omega)
    · split
      · show i + 1 ≤ i + (n + 1)
        omega
      · exact le_trans (ih _ _ _ _) (by omega)

/-- A lead service that never selects a tool drives the loop to the
ceiling: the run ends blocked with the max-iterations summary, the
session is paused, and exactly `iter + fuel` iterations are performed. -/
theorem tlLoop_no_tools (svc : List TLEntry → TLResponse)
    (agentOracle : AgentName → Str → AgentResult)
    (hsvc : ∀ m, tlToolUses (svc m) = []) :
    ∀ fuel sess messages dels iter,
    tlLoop svc agentOracle sess messages dels iter fuel =
      (⟨.blocked, tlMaxSummary, dels, none⟩, { sess with status := .paused },
       iter + fuel) := by
  intro fuel
  induction fuel with
  | zero => intro sess m d i; simp [tlLoop]
  | succ n ih =>
    intro sess m d i
    simp only [tlLoop, hsvc m, List.isEmpty_nil, if_true]
    rw [ih]
    have harith : i + 1 + n = i + (n + 1) := by omega
    rw [harith]

/-- Claim C9, counterexample: `handleTeamLead` has no branch for a
cancelled session — its status chain only distinguishes missing, paused
and completed — so a team-lead event arriving for a cancelled session
falls through and invokes the delegation engine, contradicting the claim
that every start/reply/team-lead handler returns without invoking the
engine once the session is cancelled. -/
theorem c9_counterexample :
    cancelledSess.status = .cancelled ∧
    handleTeamLead (some cancelledSess) = .runExisting ∧
    tlActionInvokesEngine (handleTeamLead (some cancelledSess)) = true := by
  refine ⟨rfl, by decide, by decide⟩

/-- Claim C9 (amended): once a session is cancelled, the fixed-pipeline
reply handler and the team-lead reply handler return without invoking any
capability or the engine, and a further stop event performs no status
write; the team-lead start/dispatch handler, however, does not check for
cancellation and invokes the delegation engine even for a cancelled
session. -/
theorem c9_cancelled_gating (s : Session) (h : s.status = .cancelled) :
    handleHumanResponse (some s) = .ignoredInactive ∧
    hrActionInvokesCapability (handleHumanResponse (some s)) = false ∧
    handleTeamLeadHumanResponse (some s) = .ignoredInactive ∧
    handleAgentStop (some s) = none ∧
    handleTeamLead (some s) = .runExisting ∧
    tlActionInvokesEngine (handleTeamLead (some s)) = true := by
  have h1 : handleHumanResponse (some s) = .ignoredInactive := by
    simp [handleHumanResponse, h]
  have h2 : handleTeamLeadHumanResponse (some s) = .ignoredInactive := by
    simp [handleTeamLeadHumanResponse, h]
  have h3 : handleAgentStop (some s) = none := by
    simp [handleAgentStop, h]
  have h4 : handleTeamLead (some s) = .runExisting := by
    simp [handleTeamLead, h]
  exact ⟨h1, by rw [h1]; rfl, h2, h3, h4, by rw [h4]; rfl⟩

/-- Witness for C9: the amended gating applied to a concrete cancelled
session. -/
theorem c9_cancelled_gating_witness :
    handleHumanResponse (some cancelledSess) = .ignoredInactive ∧
    hrActionInvokesCapability (handleHumanResponse (some cancelledSess))
      = false ∧
    handleTeamLeadHumanResponse (some cancelledSess) = .ignoredInactive ∧
    handleAgentStop (some cancelledSess) = none ∧
    handleTeamLead (some cancelledSess) = .runExisting ∧
    tlActionInvokesEngine (handleTeamLead (some cancelledSess)) = true :=
  c9_cancelled_gating cancelledSess rfl

/-- Claim C6: for every behaviour of the reasoning service — including
one that never emits a sentinel and never requests tools — the bounded
implementer loops report at most their configured ceilings (100 and 1000)
and the lead loop performs at most 25 iterations; a service that never
emits a sentinel and never requests tools drives the implementer loop to
exactly its ceiling with the needs-review outcome, and a lead service
that never selects a tool ends blocked with the max-iterations summary
and a paused session after exactly 25 iterations. -/
theorem c6_bounded_loops :
    (∀ rootSegs env svc fs baseContext,
      iterationsOf (runImplementerAgent rootSegs env svc fs baseContext)
        ≤ 100) ∧
    (∀ rootSegs env svc fs baseContext initialContext,
      iterationsOf
        (runBasicImplementer rootSegs env svc fs baseContext initialContext)
        ≤ 1000) ∧
    (∀ rootSegs env svc fs baseContext,
      (∀ m, includesStr SENT_COMPLETE (textOf (svc m)) = false ∧
        includesStr SENT_BLOCKED (textOf (svc m)) = false ∧
        toolUseBlocksOf (svc m) = []) →
      runImplementerAgent rootSegs env svc fs baseContext =
        .maxedOut [] 100) ∧
    (∀ svc agentOracle sess,
      (runTeamLead svc agentOracle sess).2.2 ≤ 25) ∧
    (∀ svc agentOracle sess,
      (∀ m, tlToolUses (svc m) = []) →
      runTeamLead svc agentOracle sess =
        (⟨.blocked, tlMaxSummary, [], none⟩,
         { sess with status := .paused }, 25)) := by
  refine ⟨?_, ?_, ?_, ?_, ?_⟩
  · intro rootSegs env svc fs baseContext
    simpa [runImplementerAgent, implementerMaxIterations] using
      implLoop_iterations_le rootSegs env svc 100 fs
        [.userText (baseContext ++ beginImplMsg)] [] 0
  · intro rootSegs env svc fs baseContext initialContext
    simpa [runBasicImplementer, basicImplementerMaxIterations] using
      implLoop_iterations_le rootSegs env svc 1000 fs
        [.userText (baseContext ++ initialContext ++ importantNote ++
          basicBeginMsg)] [] 0
  · intro rootSegs env svc fs baseContext hsvc
    simpa [runImplementerAgent, implementerMaxIterations] using
      implLoop_no_sentinel rootSegs env svc hsvc 100 fs
        [.userText (baseContext ++ beginImplMsg)] [] 0
  · intro svc agentOracle sess
    simpa [runTeamLead, MAX_ITERATIONS] using
      tlLoop_iterations_le svc agentOracle 25 sess
        [.userText (buildStateContext sess [])] [] 0
  · intro svc agentOracle sess hsvc
    simpa [runTeamLead, MAX_ITERATIONS] using
      tlLoop_no_tools svc agentOracle hsvc 25 sess
        [.userText (buildStateContext sess [])] [] 0

/-- Witness for C6: the scripted always-text services hit both ceilings
exactly. -/
theorem c6_bounded_loops_witness :
    runImplementerAgent rootEx envEx svcSilent fsEx (str "ctx") =
      .maxedOut [] 100 ∧
    runTeamLead tlSvcSilent agentOracleEx sessEx =
      (⟨.blocked, tlMaxSummary, [], none⟩,
       { sessEx with status := .paused }, 25) := by
  constructor
  · refine c6_bounded_loops.2.2.1 rootEx envEx svcSilent fsEx (str "ctx")
      (fun m => ?_)
    have hm : svcSilent m = ⟨[.text (str "still working on the task")]⟩ := rfl
    rw [hm]
    exact ⟨by decide, by decide, rfl⟩
  · exact c6_bounded_loops.2.2.2.2 tlSvcSilent agentOracleEx sessEx
      (fun m => rfl)

/-- The two projections of the analysis agree by construction. -/
theorem analyzeTaskComplexity_use (plan design : Str) :
    (analyzeTaskComplexity plan design).useClaudeCode =
      decide ((analyzeTaskComplexity plan design).score ≥
        COMPLEXITY_THRESHOLDS.scoreThreshold) := rfl

/-- Claim C10: when the lowercased combined plan-and-design text carries
at least four file-extension references (exceeding the configured
threshold of 3, worth 30 points) and contains the configured keyword
`migrate` (worth 15 points), the complexity score is at least 45, which
meets the configured escalation threshold of 25, and — absent a pending
or approved external plan, with the external tool available — the
implementer is routed to the plan-for-approval path instead of the direct
tool loop. -/
theorem c10_complexity_escalation (plan design : Str)
    (hfiles : 4 ≤ countExtRefs (toLowerStr (plan ++ [' '] ++ design)))
    (hkw : includesStr (str "migrate") (toLowerStr (plan ++ [' '] ++ design))
      = true) :
    45 ≤ (analyzeTaskComplexity plan design).score ∧
    (analyzeTaskComplexity plan design).useClaudeCode = true ∧
    implementerRoute none none
      (analyzeTaskComplexity plan design).useClaudeCode true =
      .planForApproval := by
  have hscore : 45 ≤ (analyzeTaskComplexity plan design).score := by
    simp only [analyzeTaskComplexity]
    rw [if_pos (by
      show countExtRefs (toLowerStr (plan ++ [' '] ++ design)) > 3
      omega)]
    have hpos : 0 < COMPLEXITY_THRESHOLDS.complexKeywords.countP
        (fun keyword =>
          includesStr keyword (toLowerStr (plan ++ [' '] ++ design))) := by
      rw [List.countP_pos_iff]
      exact ⟨str "migrate", by decide, hkw⟩
    have h15 : 15 ≤ 15 * COMPLEXITY_THRESHOLDS.complexKeywords.countP
        (fun keyword =>
          includesStr keyword (toLowerStr (plan ++ [' '] ++ design))) := by
      omega
    omega
  have huse : (analyzeTaskComplexity plan design).useClaudeCode = true := by
    rw [analyzeTaskComplexity_use]
    exact decide_eq_true (by
      show COMPLEXITY_THRESHOLDS.scoreThreshold ≤ _
      have : COMPLEXITY_THRESHOLDS.scoreThreshold = 25 := rfl
      omega)
  refine ⟨hscore, huse, ?_⟩
  rw [huse]
  decide

/-- Witness for C10: the scenario text scores at least 45 and routes to
the plan-for-approval path. -/
theorem c10_complexity_escalation_witness :
    45 ≤ (analyzeTaskComplexity planC10 (str "")).score ∧
    (analyzeTaskComplexity planC10 (str "")).useClaudeCode = true ∧
    implementerRoute none none
      (analyzeTaskComplexity planC10 (str "")).useClaudeCode true =
      .planForApproval :=
  c10_complexity_escalation planC10 (str "") (by decide) (by decide)
